import Mathlib

/-!
Verification of the proof-of-work mining client.

Shallow embedding of `src/Crypto Blockchain/Blockchain/main.rs` — the block
representation, canonical hash preimage (SHA-256), difficulty predicate,
mining loop, and the difficulty-response parsing — together with theorems
settling the specification's claims about them.

Machine integers (`u64`, `u32`) are modelled as `Nat` with explicit
`% 2 ^ 64` (resp. bounds checks) where overflow matters.  Bytes are `Nat`
values `< 256`.  Fallible operations return `Option`.
-/

namespace Blockchain

/-! ## Hex encoding and decoding (model of the `hex` crate) -/

/-- Lowercase hex digit for a value `< 16`, as produced by `hex::encode`. -/
def hexChar (n : Nat) : Char :=
  if n < 10 then Char.ofNat (48 + n) else Char.ofNat (87 + n)

/-- Two lowercase hex characters for one byte. -/
def hexEncodeByte (b : Nat) : List Char :=
  [hexChar (b / 16), hexChar (b % 16)]

/-- Model of `hex::encode`: lowercase hex rendering of a byte sequence. -/
def hexEncode (bs : List Nat) : String :=
  ⟨(bs.map hexEncodeByte).flatten⟩

/-- Value of a single hex character (both cases, as `hex::decode` accepts). -/
def hexCharVal (c : Char) : Option Nat :=
  if 48 ≤ c.toNat ∧ c.toNat ≤ 57 then some (c.toNat - 48)
  else if 97 ≤ c.toNat ∧ c.toNat ≤ 102 then some (c.toNat - 87)
  else if 65 ≤ c.toNat ∧ c.toNat ≤ 70 then some (c.toNat - 55)
  else none

/-- Model of `hex::decode` on the character list: fails on odd length or a non-hex
character, otherwise produces one byte per character pair. -/
def hexDecodeChars : List Char → Option (List Nat)
  | [] => some []
  | [_] => none
  | c1 :: c2 :: rest =>
    match hexCharVal c1, hexCharVal c2, hexDecodeChars rest with
    | some h, some l, some tl => some ((16 * h + l) :: tl)
    | _, _, _ => none

/-- Model of `hex::decode` on a string. -/
def hexDecode (s : String) : Option (List Nat) :=
  hexDecodeChars s.data

/-! ## Decimal rendering (model of Rust `{}` formatting for unsigned ints) -/

/-- Fuel-indexed digit emitter; `fuel = n + 1` always suffices. -/
def decDigitsAux : Nat → Nat → List Nat
  | 0, _ => []
  | fuel + 1, n =>
    if n < 10 then [48 + n] else decDigitsAux fuel (n / 10) ++ [48 + n % 10]

/-- Decimal ASCII rendering of an unsigned integer: the digit codes,
most significant first, no leading zeros, no sign. -/
def decAscii (n : Nat) : List Nat :=
  decDigitsAux (n + 1) n

/-- Decimal rendering as a string (what `format!("{}", n)` produces). -/
def decRepr (n : Nat) : String :=
  ⟨(decAscii n).map Char.ofNat⟩

/-! ## UTF-8 bytes of a string (what `Sha256::update` receives) -/

/-- UTF-8 encoding of one character. -/
def utf8EncodeChar (c : Char) : List Nat :=
  let n := c.toNat
  if n < 128 then [n]
  else if n < 2048 then [192 + n / 64, 128 + n % 64]
  else if n < 65536 then [224 + n / 4096, 128 + n / 64 % 64, 128 + n % 64]
  else [240 + n / 262144, 128 + n / 4096 % 64, 128 + n / 64 % 64, 128 + n % 64]

/-- The UTF-8 byte sequence of a string. -/
def strBytes (s : String) : List Nat :=
  (s.data.map utf8EncodeChar).flatten

/-! ## SHA-256 (model of the `sha2` crate) -/

/-- Modular 32-bit addition. -/
def add32 (a b : Nat) : Nat := (a + b) % 2 ^ 32

/-- Right rotation of a 32-bit value `< 2^32`. -/
def rotr32 (n x : Nat) : Nat := (x / 2 ^ n + x * 2 ^ (32 - n)) % 2 ^ 32

/-- The 64 SHA-256 round constants (FIPS 180-4, written in decimal). -/
def shaK : List Nat :=
  [1116352408, 1899447441, 3049323471, 3921009573, 961987163,
   1508970993, 2453635748, 2870763221, 3624381080, 310598401,
   607225278, 1426881987, 1925078388, 2162078206, 2614888103,
   3248222580, 3835390401, 4022224774, 264347078, 604807628,
   770255983, 1249150122, 1555081692, 1996064986, 2554220882,
   2821834349, 2952996808, 3210313671, 3336571891, 3584528711,
   113926993, 338241895, 666307205, 773529912, 1294757372,
   1396182291, 1695183700, 1986661051, 2177026350, 2456956037,
   2730485921, 2820302411, 3259730800, 3345764771, 3516065817,
   3600352804, 4094571909, 275423344, 430227734, 506948616,
   659060556, 883997877, 958139571, 1322822218, 1537002063,
   1747873779, 1955562222, 2024104815, 2227730452, 2361852424,
   2428436474, 2756734187, 3204031479, 3329325298]

/-- The SHA-256 initial hash state (FIPS 180-4, written in decimal). -/
def shaH0 : List Nat :=
  [1779033703, 3144134277, 1013904242, 2773480762,
   1359893119, 2600822924, 528734635, 1541459225]

/-- Big-endian bytes of a value, fixed width `n`. -/
def toBytesBE : Nat → Nat → List Nat
  | 0, _ => []
  | n + 1, v => toBytesBE n (v / 256) ++ [v % 256]

/-- Big-endian value of a byte list. -/
def fromBytesBE (bs : List Nat) : Nat :=
  bs.foldl (fun acc b => acc * 256 + b) 0

/-- Schedule function σ₀. -/
def smallSigma0 (x : Nat) : Nat :=
  Nat.xor (rotr32 7 x) (Nat.xor (rotr32 18 x) (x / 2 ^ 3))

/-- Schedule function σ₁. -/
def smallSigma1 (x : Nat) : Nat :=
  Nat.xor (rotr32 17 x) (Nat.xor (rotr32 19 x) (x / 2 ^ 10))

/-- Extend the 16-word schedule by `n` further words. -/
def extendSchedule : List Nat → Nat → List Nat
  | ws, 0 => ws
  | ws, n + 1 =>
    let i := ws.length
    let w := add32 (add32 (ws.getD (i - 16) 0) (smallSigma0 (ws.getD (i - 15) 0)))
                   (add32 (ws.getD (i - 7) 0) (smallSigma1 (ws.getD (i - 2) 0)))
    extendSchedule (ws ++ [w]) n

/-- The 64 compression rounds; `kws` holds `k[i] + w[i] (mod 2^32)`. -/
def compressLoop : List Nat → Nat → Nat → Nat → Nat → Nat → Nat → Nat → Nat → List Nat
  | [], a, b, c, d, e, f, g, h => [a, b, c, d, e, f, g, h]
  | kw :: rest, a, b, c, d, e, f, g, h =>
    let s1 := Nat.xor (rotr32 6 e) (Nat.xor (rotr32 11 e) (rotr32 25 e))
    let ch := Nat.xor (Nat.land e f) (Nat.land (Nat.xor e (2 ^ 32 - 1)) g)
    let t1 := add32 h (add32 s1 (add32 ch kw))
    let s0 := Nat.xor (rotr32 2 a) (Nat.xor (rotr32 13 a) (rotr32 22 a))
    let mj := Nat.xor (Nat.land a b) (Nat.xor (Nat.land a c) (Nat.land b c))
    let t2 := add32 s0 mj
    compressLoop rest (add32 t1 t2) a b c (add32 d t1) e f g

/-- Compress one 64-byte chunk into the running hash state. -/
def shaCompress (hs chunk : List Nat) : List Nat :=
  let ws0 := (List.range 16).map fun i => fromBytesBE ((chunk.drop (4 * i)).take 4)
  let ws := extendSchedule ws0 48
  let kws := (shaK.zip ws).map fun p => add32 p.1 p.2
  let res := compressLoop kws (hs.getD 0 0) (hs.getD 1 0) (hs.getD 2 0) (hs.getD 3 0)
                              (hs.getD 4 0) (hs.getD 5 0) (hs.getD 6 0) (hs.getD 7 0)
  (hs.zip res).map fun p => add32 p.1 p.2

/-- Fold the compression over `n` chunks of the padded message. -/
def shaChunks : Nat → List Nat → List Nat → List Nat
  | 0, hs, _ => hs
  | n + 1, hs, msg => shaChunks n (shaCompress hs (msg.take 64)) (msg.drop 64)

/-- SHA-256 of a byte sequence: 32 output bytes. -/
def sha256 (msg : List Nat) : List Nat :=
  let padded := msg ++ [128] ++ List.replicate ((64 - (msg.length + 9) % 64) % 64) 0
                    ++ toBytesBE 8 (8 * msg.length % 2 ^ 64)
  let hs := shaChunks (padded.length / 64) shaH0 padded
  (hs.map (toBytesBE 4)).flatten

/-! ## The `Block` struct and its operations -/

/-- The `Block` struct of `main.rs`.  `index`, `timestamp` and `nonce` are
`u64` (here `Nat`, kept `< 2 ^ 64` by the operations); `data` is `Vec<u8>`
(a byte list); `previous_hash` and `hash` are `String`s. -/
structure Block where
  index : Nat
  timestamp : Nat
  data : List Nat
  previous_hash : String
  hash : String
  nonce : Nat
deriving Repr, DecidableEq, Inhabited

/-- Model of `Block::calculate_hash`: SHA-256 of the UTF-8 bytes of
`format!("{}{}{}{}{}", index, timestamp, hex::encode(&data), previous_hash, nonce)`,
rendered in lowercase hex. -/
def Block.calculate_hash (b : Block) : String :=
  hexEncode (sha256 (strBytes
    (decRepr b.index ++ decRepr b.timestamp ++ hexEncode b.data
      ++ b.previous_hash ++ decRepr b.nonce)))

/-- Model of `Block::new`.  In the source the timestamp is read from the system
clock (a side effect); here it is an explicit argument. -/
def Block.new (index timestamp : Nat) (data : List Nat) (previous_hash : String) : Block :=
  let b : Block :=
    { index, timestamp, data, previous_hash, hash := "", nonce := 0 }
  { b with hash := b.calculate_hash }

/-! ## The difficulty predicate -/

/-- Model of `meets_difficulty`: hex-decode the hash and test whether it starts with
`difficulty` zero bytes.  The source calls `.expect(...)` on the decode
result, i.e. panics on invalid hex; `none` models that panic. -/
def meets_difficulty (hash : String) (difficulty : Nat) : Option Bool :=
  (hexDecode hash).map
    (fun hash_bytes => (List.replicate difficulty 0).isPrefixOf hash_bytes)

/-! ## The miner -/

/-- One iteration of the mining loop body: `nonce += 1` (a `u64` increment,
wrapping modulo `2 ^ 64`) followed by `hash = calculate_hash()`. -/
def mineStep (b : Block) : Block :=
  let b' := { b with nonce := (b.nonce + 1) % 2 ^ 64 }
  { b' with hash := b'.calculate_hash }

/-- The `while !meets_difficulty` search, indexed by fuel: `some` is the
mined block, `none` is fuel exhaustion or a decode panic.  The source loop
has no other exit. -/
def mineLoop : Nat → Block → Nat → Option Block
  | 0, _, _ => none
  | fuel + 1, b, difficulty =>
    match meets_difficulty b.hash difficulty with
    | none => none
    | some true => some b
    | some false => mineLoop fuel (mineStep b) difficulty

/-- Model of `mine_block`: build the candidate `Block::new(previous_block.index + 1,
data, previous_block.hash)` and run the search.  The `u64` sum
`previous_block.index + 1` is taken modulo `2 ^ 64`; the construction
timestamp is an explicit argument. -/
def mine_block (previous_block : Block) (timestamp : Nat) (data : List Nat)
    (difficulty : Nat) (fuel : Nat) : Option Block :=
  mineLoop fuel
    (Block.new ((previous_block.index + 1) % 2 ^ 64) timestamp data previous_block.hash)
    difficulty

/-! ## Difficulty-response parsing -/

/-- Rust `str::trim_start_matches` on the character level: repeatedly
remove the (non-empty) pattern while it is a prefix. -/
def trimStartChars : Nat → List Char → List Char → List Char
  | 0, _, l => l
  | fuel + 1, pat, l =>
    if pat ≠ [] ∧ pat.isPrefixOf l then trimStartChars fuel pat (l.drop pat.length)
    else l

/-- Model of `str::trim_start_matches`. -/
def trimStartMatches (s pat : String) : String :=
  ⟨trimStartChars s.data.length pat.data s.data⟩

/-- Rust `str::parse::<u32>`: an optional `+` sign, then one or more
decimal digits, value below `2 ^ 32`; anything else is an error. -/
def parseU32 (s : String) : Option Nat :=
  let cs := if s.data.head? = some '+' then s.data.tail else s.data
  if cs = [] then none
  else if cs.all (fun c => 48 ≤ c.toNat ∧ c.toNat ≤ 57) then
    let v := cs.foldl (fun acc c => acc * 10 + (c.toNat - 48)) 0
    if v < 2 ^ 32 then some v else none
  else none

/-- The difficulty-parsing step of `get_difficulty_from_server`:
`body.trim_start_matches("Difficulty: ").parse::<u32>()`.  `none` models
the `anyhow` error (`ProtocolError` in the spec's terms). -/
def parse_difficulty (body : String) : Option Nat :=
  parseU32 (trimStartMatches body "Difficulty: ")

/-! ## Helper lemmas: hex round-trip, digest shape, ASCII byte facts -/

theorem hexCharVal_hexChar : ∀ n < 16, hexCharVal (hexChar n) = some n := by decide

theorem hexChar_toNat_lt : ∀ n < 16, (hexChar n).toNat < 128 := by decide

theorem hexChar_mem_alphabet : ∀ n < 16, hexChar n ∈ ("0123456789abcdef".data) := by decide

theorem hexDecodeChars_encode : ∀ (bs : List Nat), (∀ b ∈ bs, b < 256) →
    hexDecodeChars ((bs.map hexEncodeByte).flatten) = some bs := by
  intro bs
  induction bs with
  | nil => intro _; rfl
  | cons b tl ih =>
    intro hb
    have hb256 : b < 256 := hb b (List.mem_cons_self b tl)
    have hdiv : b / 16 < 16 := Nat.div_lt_of_lt_mul (by omega)
    have hmod : b % 16 < 16 := Nat.mod_lt b (by omega)
    have hrt : 16 * (b / 16) + b % 16 = b := Nat.div_add_mod b 16
    have hflat : (List.map hexEncodeByte (b :: tl)).flatten
        = hexChar (b / 16) :: hexChar (b % 16) :: (List.map hexEncodeByte tl).flatten := by
      simp [hexEncodeByte]
    rw [hflat, hexDecodeChars, hexCharVal_hexChar _ hdiv, hexCharVal_hexChar _ hmod,
      ih (fun x hx => hb x (List.mem_cons_of_mem b hx))]
    simp [hrt]

theorem hexDecode_hexEncode (bs : List Nat) (h : ∀ b ∈ bs, b < 256) :
    hexDecode (hexEncode bs) = some bs :=
  hexDecodeChars_encode bs h

theorem hexDecodeChars_length : ∀ (cs : List Char) (bs : List Nat),
    hexDecodeChars cs = some bs → cs.length = 2 * bs.length
  | [], bs, h => by
    simp only [hexDecodeChars, Option.some.injEq] at h
    subst h; rfl
  | [_], bs, h => by simp [hexDecodeChars] at h
  | c1 :: c2 :: rest, bs, h => by
    rw [hexDecodeChars] at h
    cases h1 : hexCharVal c1 with
    | none => rw [h1] at h; cases h2 : hexCharVal c2 <;> simp [h2] at h
    | some hv =>
      cases h2 : hexCharVal c2 with
      | none => rw [h1, h2] at h; simp at h
      | some lv =>
        rw [h1, h2] at h
        cases h3 : hexDecodeChars rest with
        | none => rw [h3] at h; simp at h
        | some tl =>
          rw [h3] at h
          simp only [Option.some.injEq] at h
          subst h
          have := hexDecodeChars_length rest tl h3
          simp [List.length_cons, this]
          omega

theorem toBytesBE_lt : ∀ (n v : Nat), ∀ x ∈ toBytesBE n v, x < 256 := by
  intro n
  induction n with
  | zero => intro v x hx; simp [toBytesBE] at hx
  | succ n ih =>
    intro v x hx
    rw [toBytesBE, List.mem_append] at hx
    rcases hx with hx | hx
    · exact ih _ x hx
    · simp at hx; omega

theorem toBytesBE_length : ∀ (n v : Nat), (toBytesBE n v).length = n := by
  intro n
  induction n with
  | zero => intro v; rfl
  | succ n ih => intro v; rw [toBytesBE]; simp [ih]

theorem compressLoop_length : ∀ (kws : List Nat) (a b c d e f g h : Nat),
    (compressLoop kws a b c d e f g h).length = 8
  | [], _, _, _, _, _, _, _, _ => rfl
  | _ :: rest, a, b, c, d, e, f, g, h => by
    rw [compressLoop]
    exact compressLoop_length rest _ _ _ _ _ _ _ _

theorem shaCompress_length (hs chunk : List Nat) (h : hs.length = 8) :
    (shaCompress hs chunk).length = 8 := by
  simp [shaCompress, List.length_zip, compressLoop_length, h]

theorem shaChunks_length : ∀ (n : Nat) (hs msg : List Nat), hs.length = 8 →
    (shaChunks n hs msg).length = 8
  | 0, hs, _, h => h
  | n + 1, hs, msg, h => by
    rw [shaChunks]
    exact shaChunks_length n _ _ (shaCompress_length hs _ h)

theorem flatten_toBytes4_length (hs : List Nat) (h : hs.length = 8) :
    ((hs.map (toBytesBE 4)).flatten).length = 32 := by
  rw [List.length_flatten, List.map_map]
  have hmap : List.map (List.length ∘ toBytesBE 4) hs = List.map (fun _ => 4) hs :=
    List.map_congr_left (fun x _ => toBytesBE_length 4 x)
  rw [hmap, List.map_const', List.sum_replicate, h]
  simp

theorem sha256_length (msg : List Nat) : (sha256 msg).length = 32 := by
  rw [sha256]
  exact flatten_toBytes4_length _ (shaChunks_length _ _ _ rfl)

theorem sha256_lt (msg : List Nat) : ∀ x ∈ sha256 msg, x < 256 := by
  intro x hx
  rw [sha256, List.mem_flatten] at hx
  rcases hx with ⟨l, hl, hxl⟩
  rw [List.mem_map] at hl
  rcases hl with ⟨v, _, rfl⟩
  exact toBytesBE_lt 4 v x hxl

theorem hexDecode_sha_hex (msg : List Nat) :
    hexDecode (hexEncode (sha256 msg)) = some (sha256 msg) :=
  hexDecode_hexEncode _ (sha256_lt msg)

/-! ## Helper lemmas: byte-level view of the preimage string -/

theorem toNat_charOfNat (n : Nat) (h : n < 128) : (Char.ofNat n).toNat = n := by
  have hv : n.isValidChar := Or.inl (by omega)
  rw [Char.ofNat, dif_pos hv]
  rfl

theorem utf8EncodeChar_ascii (c : Char) (h : c.toNat < 128) :
    utf8EncodeChar c = [c.toNat] := by
  simp [utf8EncodeChar, h]

theorem strBytes_mk (l : List Char) : strBytes ⟨l⟩ = (l.map utf8EncodeChar).flatten := rfl

theorem strBytes_append (s t : String) : strBytes (s ++ t) = strBytes s ++ strBytes t := by
  cases s with
  | mk l =>
    cases t with
    | mk m =>
      show ((l ++ m).map utf8EncodeChar).flatten
        = (l.map utf8EncodeChar).flatten ++ (m.map utf8EncodeChar).flatten
      rw [List.map_append, List.flatten_append]

theorem flatten_map_singleton : ∀ (l : List Nat) (f : Nat → List Nat),
    (∀ x ∈ l, f x = [x]) → (l.map f).flatten = l := by
  intro l f
  induction l with
  | nil => intro _; rfl
  | cons a tl ih =>
    intro h
    simp only [List.map_cons, List.flatten_cons, h a (List.mem_cons_self a tl),
      ih (fun x hx => h x (List.mem_cons_of_mem a hx))]
    rfl

theorem flatten_utf8_ascii : ∀ (cs : List Char), (∀ c ∈ cs, c.toNat < 128) →
    (cs.map utf8EncodeChar).flatten = cs.map Char.toNat := by
  intro cs
  induction cs with
  | nil => intro _; rfl
  | cons c tl ih =>
    intro h
    simp only [List.map_cons, List.flatten_cons,
      utf8EncodeChar_ascii c (h c (List.mem_cons_self c tl)),
      ih (fun x hx => h x (List.mem_cons_of_mem c hx))]
    rfl

theorem decDigitsAux_mem_le : ∀ (fuel n x : Nat), x ∈ decDigitsAux fuel n →
    48 ≤ x ∧ x ≤ 57
  | 0, n, x, h => by simp [decDigitsAux] at h
  | fuel + 1, n, x, h => by
    rw [decDigitsAux] at h
    split at h
    · rename_i hn
      simp at h
      omega
    · rw [List.mem_append] at h
      rcases h with h | h
      · exact decDigitsAux_mem_le fuel (n / 10) x h
      · simp at h; omega

theorem decAscii_mem_le (n x : Nat) (h : x ∈ decAscii n) : 48 ≤ x ∧ x ≤ 57 :=
  decDigitsAux_mem_le (n + 1) n x h

theorem strBytes_decRepr (n : Nat) : strBytes (decRepr n) = decAscii n := by
  rw [decRepr, strBytes_mk, List.map_map]
  apply flatten_map_singleton
  intro x hx
  have hb := decAscii_mem_le n x hx
  have h128 : x < 128 := by omega
  simp only [Function.comp_apply]
  rw [utf8EncodeChar_ascii (Char.ofNat x) (by rw [toNat_charOfNat x h128]; exact h128),
    toNat_charOfNat x h128]

theorem hexEncode_data (bs : List Nat) :
    (hexEncode bs).data = (bs.map hexEncodeByte).flatten := rfl

theorem hexEncode_ascii (bs : List Nat) (h : ∀ b ∈ bs, b < 256) :
    ∀ c ∈ (hexEncode bs).data, c.toNat < 128 := by
  intro c hc
  rw [hexEncode_data, List.mem_flatten] at hc
  rcases hc with ⟨l, hl, hcl⟩
  rw [List.mem_map] at hl
  rcases hl with ⟨b, hb, rfl⟩
  have hb256 := h b hb
  have hdiv : b / 16 < 16 := Nat.div_lt_of_lt_mul (by omega)
  have hmod : b % 16 < 16 := Nat.mod_lt b (by omega)
  simp only [hexEncodeByte, List.mem_cons, List.not_mem_nil, or_false] at hcl
  rcases hcl with h | h
  · rw [h]; exact hexChar_toNat_lt _ hdiv
  · rw [h]; exact hexChar_toNat_lt _ hmod

theorem strBytes_hexEncode (bs : List Nat) (h : ∀ b ∈ bs, b < 256) :
    strBytes (hexEncode bs) = (hexEncode bs).data.map Char.toNat := by
  rw [strBytes]
  exact flatten_utf8_ascii _ (hexEncode_ascii bs h)

/-! ## Helper lemmas: the `starts_with` test and the mining loop -/

theorem isPrefixOf_eq_take : ∀ (l bs : List Nat),
    l.isPrefixOf bs = true ↔ bs.take l.length = l
  | [], bs => by simp [List.isPrefixOf]
  | _ :: _, [] => by simp [List.isPrefixOf]
  | a :: as, b :: bs => by
    simp only [List.isPrefixOf, List.length_cons, List.take_succ_cons,
      Bool.and_eq_true, beq_iff_eq, List.cons.injEq]
    constructor
    · rintro ⟨h1, h2⟩
      exact ⟨h1.symm, (isPrefixOf_eq_take as bs).mp h2⟩
    · rintro ⟨h1, h2⟩
      exact ⟨h1.symm, (isPrefixOf_eq_take as bs).mpr h2⟩

theorem replicate_isPrefixOf_false (d : Nat) (bs : List Nat) (h : bs.length < d) :
    (List.replicate d 0).isPrefixOf bs = false := by
  cases hp : (List.replicate d 0).isPrefixOf bs with
  | false => rfl
  | true =>
    exfalso
    have ht := (isPrefixOf_eq_take _ _).mp hp
    have hl : (bs.take (List.replicate d 0).length).length = (List.replicate d 0).length := by
      rw [ht]
    rw [List.length_take, List.length_replicate] at hl
    omega

theorem replicate_zero_isPrefixOf (l : List Nat) :
    (List.replicate 0 0).isPrefixOf l = true := by
  cases l <;> rfl

theorem calcHash_set_hash (b : Block) (s : String) :
    Block.calculate_hash { b with hash := s } = b.calculate_hash := rfl

theorem mineStep_hash (b : Block) : (mineStep b).hash = (mineStep b).calculate_hash := rfl

theorem blockNew_hash (i t : Nat) (dt : List Nat) (p : String) :
    (Block.new i t dt p).hash = (Block.new i t dt p).calculate_hash := rfl

/-- Invariant of the `while` search: a returned block satisfies the
predicate, carries the starting block's construction fields unchanged, and
its `hash` field stays consistent with `calculate_hash`. -/
theorem mineLoop_some : ∀ (fuel : Nat) (b r : Block) (d : Nat),
    mineLoop fuel b d = some r →
    meets_difficulty r.hash d = some true ∧
    r.index = b.index ∧ r.timestamp = b.timestamp ∧ r.data = b.data ∧
    r.previous_hash = b.previous_hash ∧
    (b.hash = b.calculate_hash → r.hash = r.calculate_hash)
  | 0, b, r, d, h => by simp [mineLoop] at h
  | fuel + 1, b, r, d, h => by
    rw [mineLoop] at h
    cases hm : meets_difficulty b.hash d with
    | none => rw [hm] at h; simp at h
    | some v =>
      rw [hm] at h
      cases v with
      | true =>
        simp only [Option.some.injEq] at h
        subst h
        exact ⟨hm, rfl, rfl, rfl, rfl, fun hh => hh⟩
      | false =>
        have ih := mineLoop_some fuel (mineStep b) r d h
        exact ⟨ih.1, ih.2.1, ih.2.2.1, ih.2.2.2.1, ih.2.2.2.2.1,
          fun _ => ih.2.2.2.2.2 (mineStep_hash b)⟩

/-! ## Helper lemmas: shape of `hexEncode` output -/

theorem hexEncode_length (bs : List Nat) : (hexEncode bs).length = 2 * bs.length := by
  show ((bs.map hexEncodeByte).flatten).length = 2 * bs.length
  rw [List.length_flatten, List.map_map]
  have hmap : List.map (List.length ∘ hexEncodeByte) bs = List.map (fun _ => 2) bs :=
    List.map_congr_left (fun x _ => rfl)
  rw [hmap, List.map_const', List.sum_replicate]
  simp [Nat.mul_comm]

theorem hexEncode_chars (bs : List Nat) (h : ∀ b ∈ bs, b < 256) :
    ∀ c ∈ (hexEncode bs).data, c ∈ ("0123456789abcdef".data) := by
  intro c hc
  rw [hexEncode_data, List.mem_flatten] at hc
  obtain ⟨l, hl, hcl⟩ := hc
  rw [List.mem_map] at hl
  obtain ⟨x, hx, rfl⟩ := hl
  have hx256 := h x hx
  have hdiv : x / 16 < 16 := Nat.div_lt_of_lt_mul (by omega)
  have hmod : x % 16 < 16 := Nat.mod_lt x (by omega)
  simp only [hexEncodeByte, List.mem_cons, List.not_mem_nil, or_false] at hcl
  rcases hcl with h1 | h1
  · rw [h1]; exact hexChar_mem_alphabet _ hdiv
  · rw [h1]; exact hexChar_mem_alphabet _ hmod

/-! ## The claims -/

/-- The canonical preimage in the spec's words: the decimal ASCII rendering
of `index`, the decimal ASCII rendering of `timestamp`, the (ASCII bytes of
the) lowercase hex encoding of `data`, `previous_hash` as-is, and the
decimal ASCII rendering of `nonce`, concatenated with no separators. -/
def specPreimage (b : Block) : List Nat :=
  decAscii b.index ++ decAscii b.timestamp ++ (hexEncode b.data).data.map Char.toNat
    ++ strBytes b.previous_hash ++ decAscii b.nonce

/-- C1: for every block (with `data` made of bytes, as `Vec<u8>` guarantees),
`calculate_hash` returns the SHA-256 digest of the separator-free
concatenation of the decimal ASCII rendering of `index`, the decimal ASCII
rendering of `timestamp`, the lowercase hex encoding of `data`,
`previous_hash` as-is, and the decimal ASCII rendering of `nonce`, rendered
as 64 lowercase hex characters. -/
theorem calculate_hash_spec (b : Block) (hdata : ∀ x ∈ b.data, x < 256) :
    b.calculate_hash = hexEncode (sha256 (specPreimage b)) ∧
    b.calculate_hash.length = 64 ∧
    ∀ c ∈ b.calculate_hash.data, c ∈ ("0123456789abcdef".data) := by
  have hpre : strBytes (decRepr b.index ++ decRepr b.timestamp ++ hexEncode b.data
      ++ b.previous_hash ++ decRepr b.nonce) = specPreimage b := by
    rw [strBytes_append, strBytes_append, strBytes_append, strBytes_append,
      strBytes_decRepr, strBytes_decRepr, strBytes_decRepr,
      strBytes_hexEncode b.data hdata]
    rfl
  refine ⟨?_, ?_, ?_⟩
  · rw [Block.calculate_hash, hpre]
  · rw [Block.calculate_hash, hexEncode_length, sha256_length]
  · rw [Block.calculate_hash]
    exact hexEncode_chars _ (sha256_lt _)

def c1Block : Block :=
  { index := 1, timestamp := 5, data := [66, 108], previous_hash := "prevhash",
    hash := "", nonce := 98 }

theorem calculate_hash_spec_witness :
    c1Block.calculate_hash = hexEncode (sha256 (specPreimage c1Block)) ∧
    c1Block.calculate_hash.length = 64 ∧
    ∀ c ∈ c1Block.calculate_hash.data, c ∈ ("0123456789abcdef".data) :=
  calculate_hash_spec c1Block (by decide)

/-- C2: for every valid hex string and every difficulty `d`,
`meets_difficulty` returns `true` iff the decoded byte sequence has at
least `d` bytes and its first `d` bytes are all zero (zero bytes, not hex
characters or bits). -/
theorem meets_difficulty_spec (s : String) (bs : List Nat) (d : Nat)
    (hdec : hexDecode s = some bs) :
    meets_difficulty s d = some true ↔
      (d ≤ bs.length ∧ bs.take d = List.replicate d 0) := by
  rw [meets_difficulty, hdec]
  show some ((List.replicate d 0).isPrefixOf bs) = some true ↔ _
  simp only [Option.some.injEq]
  rw [show (List.replicate d 0).isPrefixOf bs = true ↔ bs.take d = List.replicate d 0 by
    have := isPrefixOf_eq_take (List.replicate d 0) bs
    rwa [List.length_replicate] at this]
  constructor
  · intro h
    have hlen : (bs.take d).length = d := by rw [h, List.length_replicate]
    rw [List.length_take] at hlen
    exact ⟨by omega, h⟩
  · exact fun h => h.2

theorem meets_difficulty_spec_witness :
    meets_difficulty "0000ff" 2 = some true ↔
      (2 ≤ ([0, 0, 255] : List Nat).length ∧
        ([0, 0, 255] : List Nat).take 2 = List.replicate 2 0) :=
  meets_difficulty_spec "0000ff" [0, 0, 255] 2 (by decide)

/-- C3 counterexample: a body `"3"` without the `"Difficulty: "` prefix does
NOT fail — `trim_start_matches` leaves a string without the pattern
unchanged, so the bare number parses successfully. -/
theorem difficulty_parse_counterexample :
    parse_difficulty "3" = some 3 ∧ parse_difficulty "3" ≠ none := by decide

/-- C3 amended: parsing removes every leading repetition of the literal
`"Difficulty: "` and parses the remainder as a `u32` decimal; a body
exactly `"Difficulty: 3"` yields 3, a body `"Difficulty:3"` (no space)
fails because `"Difficulty:3"` is not a number, and a body `"3"` alone
succeeds with 3 — an absent prefix is not detected. -/
theorem difficulty_parse_amended :
    parse_difficulty "Difficulty: 3" = some 3 ∧
    parse_difficulty "Difficulty:3" = none ∧
    parse_difficulty "3" = some 3 ∧
    parse_difficulty "Difficulty: abc" = none := by decide

/-- C4: every block returned by the miner has its `hash` field equal to the
canonical hash recomputed from its fields, and satisfies the difficulty
predicate for the `d` passed to `mine_block`. -/
theorem mine_block_valid (p : Block) (ts : Nat) (data : List Nat) (d fuel : Nat) (b : Block)
    (h : mine_block p ts data d fuel = some b) :
    b.hash = b.calculate_hash ∧ meets_difficulty b.hash d = some true := by
  rw [mine_block] at h
  have hs := mineLoop_some fuel _ b d h
  exact ⟨hs.2.2.2.2.2 (blockNew_hash _ _ _ _), hs.1⟩

def prevBlockA : Block :=
  { index := 0, timestamp := 0, data := [], previous_hash := "", hash := "", nonce := 0 }

def minedBlockA : Block :=
  { index := 1, timestamp := 0, data := [], previous_hash := "",
    hash := "ad57366865126e55649ecb23ae1d48887544976efea46a48eb5d85a6eeb4d306",
    nonce := 0 }

theorem mine_block_valid_witness :
    minedBlockA.hash = minedBlockA.calculate_hash ∧
    meets_difficulty minedBlockA.hash 0 = some true :=
  mine_block_valid prevBlockA 0 [] 0 1 minedBlockA (by decide)

def maxNonceBlock : Block :=
  { index := 0, timestamp := 0, data := [], previous_hash := "", hash := "",
    nonce := 2 ^ 64 - 1 }

/-- C5 counterexample: at the largest `u64` nonce the loop body's increment
wraps the nonce around to 0 and the search continues — no `SearchExhausted`
error exists anywhere in the code. -/
theorem nonce_overflow_counterexample :
    (mineStep maxNonceBlock).nonce = 0 ∧ maxNonceBlock.nonce = 2 ^ 64 - 1 := by decide

/-- C5 amended: the miner has no `SearchExhausted` (or any other) error
path; the nonce increment is a `u64` increment, wrapping modulo `2 ^ 64`
(in a debug build the overflowing `+=` panics instead), and the search
simply continues from nonce 0. -/
theorem nonce_increment_wraps (b : Block) :
    (mineStep b).nonce = (b.nonce + 1) % 2 ^ 64 ∧ (mineStep b).nonce < 2 ^ 64 := by
  refine ⟨rfl, ?_⟩
  show (b.nonce + 1) % 2 ^ 64 < 2 ^ 64
  exact Nat.mod_lt _ (by norm_num)

/-- C6: a block returned by the miner links to its predecessor: its
`previous_hash` is the predecessor's `hash` and its `index` is the
predecessor's `index + 1` (for any `u64`-representable successor index). -/
theorem mine_block_links (p : Block) (ts : Nat) (data : List Nat) (d fuel : Nat) (b : Block)
    (h : mine_block p ts data d fuel = some b) (hidx : p.index + 1 < 2 ^ 64) :
    b.previous_hash = p.hash ∧ b.index = p.index + 1 := by
  rw [mine_block] at h
  have hs := mineLoop_some fuel _ b d h
  constructor
  · exact hs.2.2.2.2.1
  · have h1 : b.index = (p.index + 1) % 2 ^ 64 := hs.2.1
    rw [h1, Nat.mod_eq_of_lt hidx]

def prevBlockB : Block :=
  { index := 3, timestamp := 0, data := [], previous_hash := "", hash := "abc", nonce := 0 }

def minedBlockB : Block :=
  { index := 4, timestamp := 7, data := [1, 2], previous_hash := "abc",
    hash := "962808e38de31b05f3422ca65e2f1b381bea4bc4849c64518c7c86a5919b3e8c",
    nonce := 0 }

theorem mine_block_links_witness :
    minedBlockB.previous_hash = prevBlockB.hash ∧ minedBlockB.index = prevBlockB.index + 1 :=
  mine_block_links prevBlockB 7 [1, 2] 0 1 minedBlockB (by decide) (by decide)

/-- C7: with difficulty 0 the first candidate (`nonce = 0`) already
satisfies the predicate, so the miner returns the freshly constructed block
unchanged — its nonce is 0 and only construction computed a hash. -/
theorem mine_difficulty_zero (p : Block) (ts : Nat) (data : List Nat) (fuel : Nat)
    (h : 0 < fuel) :
    mine_block p ts data 0 fuel
      = some (Block.new ((p.index + 1) % 2 ^ 64) ts data p.hash) ∧
    (Block.new ((p.index + 1) % 2 ^ 64) ts data p.hash).nonce = 0 := by
  obtain ⟨k, rfl⟩ : ∃ k, fuel = k + 1 := ⟨fuel - 1, by omega⟩
  refine ⟨?_, rfl⟩
  rw [mine_block, mineLoop]
  have hdec : meets_difficulty (Block.new ((p.index + 1) % 2 ^ 64) ts data p.hash).hash 0
      = some true := by
    rw [blockNew_hash, Block.calculate_hash, meets_difficulty, hexDecode_sha_hex,
      Option.map_some', replicate_zero_isPrefixOf]
  rw [hdec]

def prevBlockC : Block :=
  { index := 5, timestamp := 2, data := [9], previous_hash := "x", hash := "yz", nonce := 1 }

theorem mine_difficulty_zero_witness :
    mine_block prevBlockC 9 [7] 0 3
      = some (Block.new ((prevBlockC.index + 1) % 2 ^ 64) 9 [7] prevBlockC.hash) ∧
    (Block.new ((prevBlockC.index + 1) % 2 ^ 64) 9 [7] prevBlockC.hash).nonce = 0 :=
  mine_difficulty_zero prevBlockC 9 [7] 3 (by decide)

/-- C8: the mined block keeps `index`, `timestamp`, `data` and
`previous_hash` exactly as set at construction (the timestamp argument is
captured once and never refreshed), and each loop iteration changes only
`nonce` (incremented by 1 as a `u64`) and `hash` (recomputed). -/
theorem mine_block_frame (p : Block) (ts : Nat) (data : List Nat) (d fuel : Nat) (r : Block)
    (h : mine_block p ts data d fuel = some r) :
    (r.index = (p.index + 1) % 2 ^ 64 ∧ r.timestamp = ts ∧ r.data = data ∧
      r.previous_hash = p.hash) ∧
    ∀ c : Block, (mineStep c).index = c.index ∧ (mineStep c).timestamp = c.timestamp ∧
      (mineStep c).data = c.data ∧ (mineStep c).previous_hash = c.previous_hash ∧
      (mineStep c).nonce = (c.nonce + 1) % 2 ^ 64 ∧
      (mineStep c).hash = (mineStep c).calculate_hash := by
  rw [mine_block] at h
  have hs := mineLoop_some fuel _ r d h
  exact ⟨⟨hs.2.1, hs.2.2.1, hs.2.2.2.1, hs.2.2.2.2.1⟩,
    fun c => ⟨rfl, rfl, rfl, rfl, rfl, rfl⟩⟩

def prevBlockD : Block :=
  { index := 3, timestamp := 1, data := [8], previous_hash := "q", hash := "abc", nonce := 2 }

theorem mine_block_frame_witness :
    (minedBlockB.index = (prevBlockD.index + 1) % 2 ^ 64 ∧ minedBlockB.timestamp = 7 ∧
      minedBlockB.data = [1, 2] ∧ minedBlockB.previous_hash = prevBlockD.hash) ∧
    ∀ c : Block, (mineStep c).index = c.index ∧ (mineStep c).timestamp = c.timestamp ∧
      (mineStep c).data = c.data ∧ (mineStep c).previous_hash = c.previous_hash ∧
      (mineStep c).nonce = (c.nonce + 1) % 2 ^ 64 ∧
      (mineStep c).hash = (mineStep c).calculate_hash :=
  mine_block_frame prevBlockD 7 [1, 2] 0 1 minedBlockB (by decide)

/-- C9: the decode step inside `meets_difficulty` fails (panics) exactly
when its argument is not valid hex, and on any output of `calculate_hash`
the failure branch is unreachable. -/
theorem meets_difficulty_decode_safe (s : String) (d : Nat) (b : Block) (e : Nat) :
    (meets_difficulty s d = none ↔ hexDecode s = none) ∧
    meets_difficulty b.calculate_hash e ≠ none := by
  constructor
  · cases hd : hexDecode s with
    | none => rw [meets_difficulty, hd]; simp
    | some bs => rw [meets_difficulty, hd]; simp [hd]
  · rw [Block.calculate_hash, meets_difficulty, hexDecode_sha_hex]
    simp

/-- C10: a 64-character hex digest decodes to exactly 32 bytes, so for any
difficulty above 32 `meets_difficulty` is `false` — in particular on every
output of `calculate_hash`, so the mining loop's exit condition can never
hold for such difficulties. -/
theorem meets_difficulty_above_32 (s : String) (bs : List Nat) (d : Nat) (b : Block) (e : Nat)
    (hdec : hexDecode s = some bs) (hlen : s.length = 64) (hd : 32 < d) (he : 32 < e) :
    meets_difficulty s d = some false ∧
    meets_difficulty b.calculate_hash e = some false := by
  have hsl : s.data.length = 64 := hlen
  have h2 := hexDecodeChars_length s.data bs hdec
  have hbs : bs.length = 32 := by omega
  constructor
  · rw [meets_difficulty, hdec]
    show some ((List.replicate d 0).isPrefixOf bs) = some false
    rw [replicate_isPrefixOf_false d bs (by omega)]
  · rw [Block.calculate_hash, meets_difficulty, hexDecode_sha_hex]
    show some ((List.replicate e 0).isPrefixOf (sha256 _)) = some false
    rw [replicate_isPrefixOf_false e _ (by rw [sha256_length]; omega)]

def c10Block : Block :=
  { index := 0, timestamp := 0, data := [], previous_hash := "", hash := "", nonce := 0 }

theorem meets_difficulty_above_32_witness :
    meets_difficulty
        "0000000000000000000000000000000000000000000000000000000000000000" 33
      = some false ∧
    meets_difficulty c10Block.calculate_hash 40 = some false :=
  meets_difficulty_above_32
    "0000000000000000000000000000000000000000000000000000000000000000"
    (List.replicate 32 0) 33 c10Block 40 (by decide) (by decide) (by decide) (by decide)

end Blockchain
